import Mathlib

/-!
Verification development for the cluster-data-manager backup/restore tool.

Each Python service relevant to the verified properties is shallowly embedded:
pure fragments become Lean functions, stateful fragments become explicit state
passing, and fallible fragments return a result type carrying the error data
that the Python code puts into the raised `RuntimeError`.  External effects
(the Kubernetes API, wall-clock time, the spawned subprocesses) are modelled
as explicit inputs: the streamed output lines, the exit codes, the disk-usage
readings and the probe answers are parameters of the embedded functions, and
the functions reproduce exactly the control flow the Python code applies to
them.
-/

namespace DataManager

/-! ### Cluster maintenance (services/cluster_maintenance.py)

The Kubernetes control-plane state visible to `ClusterMaintenance` consists of
the config-map data values and the ingress class names, both addressed by the
reference dataclasses of `services/kubernetes_api.py`.  `get_*` return
`Optional[str]` and `set_*` accept `Optional[str]` (with `None` removing the
attribute), so the state maps references to `Option String`. -/

/-- Embedding of `KubernetesIngressRef` (fields `name`, `namespace`). -/
structure KubernetesIngressRef where
  name : String
  namespaceName : String
deriving DecidableEq

/-- Embedding of `KubernetesConfigMapValueRef` (fields `name`, `namespace`, `key`). -/
structure KubernetesConfigMapValueRef where
  name : String
  namespaceName : String
  key : String
deriving DecidableEq

/-- The external cluster state manipulated through `KubernetesApi`. -/
structure K8sState where
  configMapValues : KubernetesConfigMapValueRef → Option String
  ingressClassNames : KubernetesIngressRef → Option String

/-- `KubernetesApi.get_config_map_value`. -/
def getConfigMapValue (s : K8sState) (r : KubernetesConfigMapValueRef) : Option String :=
  s.configMapValues r

/-- `KubernetesApi.set_config_map_value` (a `none` value removes the entry). -/
def setConfigMapValue (s : K8sState) (r : KubernetesConfigMapValueRef) (v : Option String) :
    K8sState :=
  { s with configMapValues := fun r2 => if r2 = r then v else s.configMapValues r2 }

/-- `KubernetesApi.get_ingress_class_name`. -/
def getIngressClassName (s : K8sState) (r : KubernetesIngressRef) : Option String :=
  s.ingressClassNames r

/-- `KubernetesApi.set_ingress_class_name`. -/
def setIngressClassName (s : K8sState) (r : KubernetesIngressRef) (v : Option String) :
    K8sState :=
  { s with ingressClassNames := fun r2 => if r2 = r then v else s.ingressClassNames r2 }

/-- Embedding of the `MaintenanceDetails` dataclass. -/
structure MaintenanceDetails where
  ingress_ref : KubernetesIngressRef
  ingress_class_name : String
  config_map_value_ref : KubernetesConfigMapValueRef
  config_map_value : String

/-- `ClusterMaintenance._set_up_maintenance_mode`: cache the current config-map
value and ingress class name, then write the maintenance values.  Returns the
cached originals (the `_original_*` attributes) and the new state.  The final
`time.sleep(5)` does not change the modelled state. -/
def setUpMaintenanceMode (d : MaintenanceDetails) (s0 : K8sState) :
    (Option String × Option String) × K8sState :=
  let originalConfigMapValue := getConfigMapValue s0 d.config_map_value_ref
  let originalIngressClassName := getIngressClassName s0 d.ingress_ref
  let s1 := setConfigMapValue s0 d.config_map_value_ref (some d.config_map_value)
  let s2 := setIngressClassName s1 d.ingress_ref (some d.ingress_class_name)
  ((originalConfigMapValue, originalIngressClassName), s2)

/-- `ClusterMaintenance._tear_down_maintenance_mode`: write back the cached
originals. -/
def tearDownMaintenanceMode (d : MaintenanceDetails)
    (originals : Option String × Option String) (s : K8sState) : K8sState :=
  setIngressClassName (setConfigMapValue s d.config_map_value_ref originals.1)
    d.ingress_ref originals.2

/-- One maintenance-window execution (`with ClusterMaintenance(...): body`).
The body receives the post-enter state and returns the external state at the
moment it finishes together with `true` when it raised.  Python context-manager
semantics guarantee `__exit__` (hence `_tear_down_maintenance_mode`) runs on
both the normal and the raising exit path, which is why the tear-down is
applied unconditionally to the body's final state. -/
def clusterMaintenance (d : MaintenanceDetails) (body : K8sState → K8sState × Bool)
    (s0 : K8sState) : K8sState × Bool :=
  let entered := setUpMaintenanceMode d s0
  let r := body entered.2
  (tearDownMaintenanceMode d entered.1 r.1, r.2)

/-! ### Containers readiness (services/containers_readiness.py) -/

/-- Result of `ContainersReadiness.wait()`.  `success round` means the round
numbered `round` (equivalently: after `round` sleeps of `interval` seconds)
saw every probe return true; `timedOut rounds` means the `RuntimeError` was
raised at the between-round deadline check after `rounds` sleeps. -/
inductive WaitOutcome where
  | success (round : Nat)
  | timedOut (rounds : Nat)
deriving DecidableEq

/-- The polling loop of `ContainersReadiness.wait()`.  `probeAll k` is the
value of `all(probe.probe() for probe in self.probes)` during round `k`; the
wall clock at the deadline check following round `j` reads `(j + 1) * interval`
seconds after the single initial computation of
`give_up_at = now + wait_timeout`, and the check is strict
(`datetime.now().timestamp() > give_up_at`).  The fuel argument only bounds
the recursion; `containersWait` supplies enough of it for every reachable
round. -/
def waitLoop (probeAll : Nat → Bool) (wait_timeout interval : Nat) :
    Nat → Nat → WaitOutcome
  | j, 0 => if probeAll j then .success j else .timedOut j
  | j, fuel + 1 =>
    if probeAll j then .success j
    else if wait_timeout < (j + 1) * interval then .timedOut (j + 1)
    else waitLoop probeAll wait_timeout interval (j + 1) fuel

/-- `ContainersReadiness.wait()`: the deadline `now + wait_timeout` is computed
exactly once, before the first polling round. -/
def containersWait (probeAll : Nat → Bool) (wait_timeout interval : Nat) : WaitOutcome :=
  waitLoop probeAll wait_timeout interval 0 (wait_timeout / interval + 1)

/-- `all(probe.probe() for probe in self.probes)` for a list of probes, each a
pure function of the round number. -/
def probesAll (probes : List (Nat → Bool)) (round : Nat) : Bool :=
  probes.all fun p => p round

/-- Python `str.strip()`: remove leading and trailing whitespace.  Defined on
the character list so that it evaluates by `decide`/`rfl`. -/
def pyStrip (s : String) : String :=
  ⟨((s.data.dropWhile Char.isWhitespace).reverse.dropWhile Char.isWhitespace).reverse⟩

/-- `ProbeKeycloak._probe`: read the status marker file and report ready
exactly when the stripped content is not the sentinel `"SETUP"`.  The function
is total: this probe has no raising path. -/
def probeKeycloak (content : String) : Bool :=
  pyStrip content != "SETUP"

theorem nat_lt_div_succ_mul (t i : Nat) (hi : 0 < i) : t < (t / i + 1) * i := by
  have h1 : i * (t / i) + t % i = t := Nat.div_add_mod t i
  have h2 : t % i < i := Nat.mod_lt t hi
  have h3 : (t / i + 1) * i = i * (t / i) + i := by
    rw [Nat.succ_mul, Nat.mul_comm]
  omega

theorem waitLoop_timedOut_of_never (p : Nat → Bool) (t i : Nat)
    (hp : ∀ k, p k = false) :
    ∀ fuel j, j + fuel = t / i + 1 → j * i ≤ t →
      waitLoop p t i j fuel = .timedOut (t / i + 1) := by
  intro fuel
  induction fuel with
  | zero =>
    intro j hsum _
    have hj : j = t / i + 1 := by omega
    simp [waitLoop, hj, hp]
  | succ f ih =>
    intro j hsum hj
    simp only [waitLoop, hp j, if_false]
    by_cases hd : t < (j + 1) * i
    · have hji : t / i = j := Nat.div_eq_of_lt_le hj hd
      simp [hd, hji]
    · simp only [hd, if_false]
      exact ih (j + 1) (by omega) (Nat.le_of_not_lt hd)

theorem waitLoop_success_of_first_true (p : Nat → Bool) (t i : Nat) (hi : 0 < i)
    (k : Nat) (hk : p k = true) (hkt : k * i ≤ t) :
    ∀ fuel j, j ≤ k → (∀ m, j ≤ m → m < k → p m = false) → j + fuel = t / i + 1 →
      waitLoop p t i j fuel = .success k := by
  intro fuel
  induction fuel with
  | zero =>
    intro j hjk hbefore hsum
    rcases Nat.lt_or_ge j k with hlt | hge
    · exfalso
      have hdiv : t < (t / i + 1) * i := nat_lt_div_succ_mul t i hi
      have : (t / i + 1) * i ≤ k * i := Nat.mul_le_mul_right i (by omega)
      omega
    · have hjke : j = k := Nat.le_antisymm hjk hge
      simp [waitLoop, hjke, hk]
  | succ f ih =>
    intro j hjk hbefore hsum
    rcases Nat.lt_or_ge j k with hlt | hge
    · have hpj : p j = false := hbefore j (Nat.le_refl j) hlt
      have hnd : ¬ t < (j + 1) * i := by
        have : (j + 1) * i ≤ k * i := Nat.mul_le_mul_right i (by omega)
        omega
      simp only [waitLoop, hpj, if_false, hnd]
      exact ih (j + 1) (by omega) (fun m hm hmk => hbefore m (by omega) hmk) (by omega)
    · have hjke : j = k := Nat.le_antisymm hjk hge
      simp [waitLoop, hjke, hk]

theorem waitLoop_ne_success_of_never (p : Nat → Bool) (t i : Nat)
    (hp : ∀ k, p k = false) :
    ∀ fuel j r, waitLoop p t i j fuel ≠ .success r := by
  intro fuel
  induction fuel with
  | zero =>
    intro j r
    simp [waitLoop, hp j]
  | succ f ih =>
    intro j r
    simp only [waitLoop, hp j, if_false]
    by_cases hd : t < (j + 1) * i
    · simp [hd]
    · simp only [hd, if_false]
      exact ih (j + 1) r

/-- C1: every maintenance-window execution restores the config-map value and
the ingress class name on exit, whatever the protected body did to them and
whether or not it raised; in between, the body observes the maintenance
values.  The post-exit values at the two references managed by the window
equal the pre-enter values, on the normal and on the raising exit path. -/
theorem cluster_maintenance_restores_state (d : MaintenanceDetails)
    (body : K8sState → K8sState × Bool) (s0 : K8sState) :
    getConfigMapValue (clusterMaintenance d body s0).1 d.config_map_value_ref
        = getConfigMapValue s0 d.config_map_value_ref
      ∧ getIngressClassName (clusterMaintenance d body s0).1 d.ingress_ref
        = getIngressClassName s0 d.ingress_ref
      ∧ getConfigMapValue (setUpMaintenanceMode d s0).2 d.config_map_value_ref
        = some d.config_map_value
      ∧ getIngressClassName (setUpMaintenanceMode d s0).2 d.ingress_ref
        = some d.ingress_class_name
      ∧ (clusterMaintenance d body s0).2 = (body (setUpMaintenanceMode d s0).2).2 := by
  refine ⟨?_, ?_, ?_, ?_, ?_⟩ <;>
    simp [clusterMaintenance, setUpMaintenanceMode, tearDownMaintenanceMode,
      getConfigMapValue, setConfigMapValue, getIngressClassName, setIngressClassName]

/-- C6: `wait()` computes the deadline once; if no round ever has all probes
true it raises at the first between-round check strictly after the deadline,
after `wait_timeout / interval + 1` sleeps, i.e. at wall-clock offset
`(wait_timeout / interval + 1) * interval`, which is strictly beyond the
deadline and at most one interval beyond it; and it returns successfully as
soon as a round has every probe true, provided that round starts no later
than the deadline. -/
theorem containers_wait_deadline (probeAll : Nat → Bool) (wait_timeout interval : Nat)
    (hi : 0 < interval) :
    ((∀ k, probeAll k = false) →
        containersWait probeAll wait_timeout interval
            = .timedOut (wait_timeout / interval + 1)
          ∧ wait_timeout < (wait_timeout / interval + 1) * interval
          ∧ (wait_timeout / interval + 1) * interval ≤ wait_timeout + interval)
      ∧ (∀ k, probeAll k = true → k * interval ≤ wait_timeout →
          (∀ m, m < k → probeAll m = false) →
          containersWait probeAll wait_timeout interval = .success k) := by
  constructor
  · intro hp
    refine ⟨?_, nat_lt_div_succ_mul wait_timeout interval hi, ?_⟩
    · exact waitLoop_timedOut_of_never probeAll wait_timeout interval hp _ 0 (by omega)
        (by simp)
    · have := Nat.div_mul_le_self wait_timeout interval
      rw [Nat.succ_mul]
      omega
  · intro k hk hkt hbefore
    exact waitLoop_success_of_first_true probeAll wait_timeout interval hi k hk hkt _ 0
      (Nat.zero_le k) (fun m _ hmk => hbefore m hmk) (by omega)

/-- Witness for `containers_wait_deadline`: with `wait_timeout = 10`,
`interval = 5` and a probe that never returns true, `wait()` raises after
3 sleeps (wall-clock offset 15, within one interval of the deadline). -/
theorem containers_wait_deadline_witness :
    containersWait (fun _ => false) 10 5 = .timedOut 3 :=
  ((containers_wait_deadline (fun _ => false) 10 5 (by decide)).1 (fun _ => rfl)).1

/-- C9: with the empty probe list, `wait()` returns successfully in round 0 —
before any sleep and before any deadline check — for every `wait_timeout` and
`interval`, because `all(...)` over no probes is vacuously true. -/
theorem containers_wait_empty_probes (wait_timeout interval : Nat) :
    containersWait (probesAll []) wait_timeout interval = .success 0 := by
  simp [containersWait, waitLoop, probesAll]

/-- C8 counterexample: when the status marker content equals the error
sentinel `"ERROR"`, `ProbeKeycloak._probe` reports *ready* (it has no raising
path), and consequently `wait()` over that probe succeeds in round 0 instead
of failing: the claimed raise-on-error-sentinel behaviour does not exist in
the probe. -/
theorem probe_keycloak_error_reports_ready :
    probeKeycloak "ERROR" = true
      ∧ containersWait (probesAll [fun _ => probeKeycloak "ERROR"]) 300 5
        = .success 0 := by
  have htrue : probeKeycloak "ERROR" = true := by decide
  refine ⟨htrue, ?_⟩
  simp [containersWait, waitLoop, probesAll, htrue]

/-- C8 amended: the keycloak probe reports ready exactly when the stripped
marker content differs from the initialization sentinel `"SETUP"`; it treats
every other content — including the error sentinel `"ERROR"` — as ready, and
`wait()` over the probe succeeds in round 0 exactly under that condition
(it never raises because of an `"ERROR"` marker). -/
theorem probe_keycloak_ready_iff (content : String) (wait_timeout interval : Nat) :
    (probeKeycloak content = true ↔ pyStrip content ≠ "SETUP")
      ∧ (containersWait (probesAll [fun _ => probeKeycloak content]) wait_timeout interval
          = .success 0 ↔ pyStrip content ≠ "SETUP") := by
  have hchar : probeKeycloak content = true ↔ pyStrip content ≠ "SETUP" := by
    simp [probeKeycloak]
  refine ⟨hchar, ?_⟩
  constructor
  · intro hw
    by_contra hne
    have hfalse : probeKeycloak content = false := by
      simp [probeKeycloak, hne]
    have hnever : ∀ k, probesAll [fun _ => probeKeycloak content] k = false := by
      intro k
      simp [probesAll, hfalse]
    exact waitLoop_ne_success_of_never _ wait_timeout interval hnever _ 0 0 hw
  · intro hne
    have htrue : probeKeycloak content = true := hchar.mpr hne
    simp [containersWait, waitLoop, probesAll, htrue]

/-- Witness for `probe_keycloak_ready_iff`: marker content `"DONE"` is ready
and makes the wait succeed immediately. -/
theorem probe_keycloak_ready_iff_witness :
    containersWait (probesAll [fun _ => probeKeycloak "DONE"]) 300 5 = .success 0 :=
  (probe_keycloak_ready_iff "DONE" 300 5).2.mpr (by decide)

/-! ### CqlshCommands (services/cqlsh_commands.py)

The subprocess interactions are modelled by their observable data: the exit
code, the stdout/stderr text (as character lists where character-level
operations matter) and the stream of lines handed to `on_line`. -/

/-- The benign-error allow-list constant `MSG_INVALID_REQUEST_COL_IDX_TOKEN`. -/
def msgInvalidRequestColIdxToken : String :=
  "InvalidRequest: Error from server: code=2200 [Invalid query] message=\"Unknown column name detected in CREATE MATERIALIZED VIEW statement: idx_token\""

/-- The allow-list message as a character list. -/
def msgChars : List Char := msgInvalidRequestColIdxToken.data

/-- Python `str.find`: the least index at which `pat` occurs in the string, or
`-1` when it does not occur. -/
def pyFind (pat : List Char) : List Char → Int
  | [] => if pat = [] then 0 else -1
  | c :: rest =>
    if pat.isPrefixOf (c :: rest) then 0
    else
      let r := pyFind pat rest
      if r = -1 then -1 else r + 1

/-- Outcome of the DDL-script execution step of `CqlshCommands.restore_ddl`
(lines 133-143): `ok` for exit code 0, `warned` when exit code 2 was
downgraded (carrying the count used in the warning report), `fatal` for the
`RuntimeError` paths. -/
inductive DdlExecOutcome where
  | ok
  | warned (ignoredFailures : Nat)
  | fatal
deriving DecidableEq

/-- The exit-code handling of `restore_ddl`: code 0 is success; code 2 is
downgraded to a warning exactly when
`all(message.find(MSG_INVALID_REQUEST_COL_IDX_TOKEN) > 0 for message in err_lines)`;
every other non-zero code, and code 2 with a non-matching line, raises. -/
def restoreDdlExec (code : Int) (errLines : List (List Char)) : DdlExecOutcome :=
  if code = 0 then .ok
  else if code = 2 then
    if errLines.all (fun l => decide ((0 : Int) < pyFind msgChars l)) then
      .warned errLines.length
    else .fatal
  else .fatal

/-- `CqlshCommands._count_table`: the reported row count is the stripped fifth
output line of the `SELECT count(*)` statement, parsed as an integer. -/
def countTable (outLines : List String) : Option Int :=
  (outLines.get? 4).bind fun l => (pyStrip l).toInt?

/-- Result of `CqlshCommands.backup_table`: either the data written to the
output file (the streamed lines minus the consistency banner) or the
`RuntimeError("Wrong count of rows : expected .. got ..")` data. -/
inductive BackupTableResult where
  | ok (written : List String)
  | wrongCount (expected : Int) (got : Nat)
deriving DecidableEq

/-- `CqlshCommands.backup_table` after the `COPY .. TO STDOUT` stream ended:
`total` is the pre-fetched `_count_table` value, `streamed` the lines handed
to `on_line` (so `count = streamed.length`).  The check is
`if (count - 1) != total: raise`; on success the file receives the stream
minus its first line (the `CONSISTENCY ALL` banner). -/
def backupTable (total : Int) (streamed : List String) : BackupTableResult :=
  if (streamed.length : Int) - 1 ≠ total then .wrongCount total streamed.length
  else .ok (streamed.drop 1)

/-- Drop the first line of a text, boundary included: the model of
`"".join(out.splitlines(keepends=True)[1:])` for newline-terminated tool
output. -/
def dropThroughNewline : List Char → List Char
  | [] => []
  | c :: rest => if c = '\n' then rest else dropThroughNewline rest

/-- Helper of `splitParagraphs`: left-to-right non-overlapping split on the
two-character separator, accumulating the current chunk reversed. -/
def splitParagraphsGo : List Char → List Char → List (List Char)
  | [], acc => [acc.reverse]
  | '\n' :: '\n' :: rest, acc => acc.reverse :: splitParagraphsGo rest []
  | c :: rest, acc => splitParagraphsGo rest (c :: acc)

/-- Python `text.split("\n\n")`: blank-line-boundary paragraphs. -/
def splitParagraphs (s : List Char) : List (List Char) :=
  splitParagraphsGo s []

/-- The schema verification step of `CqlshCommands.restore_ddl` (lines
145-155): drop the first line of the fresh `DESCRIBE` dump, split the
remainder and the source file on blank-line boundaries, and collect the dump
paragraphs missing from the source file; a non-empty difference raises the
`"not correctly restored"` error carrying that difference. -/
def ddlDiff (dump source : List Char) : List (List Char) :=
  (splitParagraphs (dropThroughNewline dump)).filter
    (fun par => decide (par ∉ splitParagraphs source))

def restoreDdlSchemaCheck (dump source : List Char) : Except (List (List Char)) Unit :=
  if 0 < (ddlDiff dump source).length then .error (ddlDiff dump source) else .ok ()

theorem isPrefixOf_self (l : List Char) : l.isPrefixOf l = true := by
  simp

theorem pyFind_self (pat : List Char) : pyFind pat pat = 0 := by
  cases pat with
  | nil => simp [pyFind]
  | cons c rest => simp [pyFind, isPrefixOf_self]

theorem neg_one_le_pyFind (pat : List Char) : ∀ s, -1 ≤ pyFind pat s := by
  intro s
  induction s with
  | nil =>
    by_cases h : pat = [] <;> simp [pyFind, h]
  | cons c rest ih =>
    by_cases h : pat.isPrefixOf (c :: rest)
    · simp [pyFind, h]
    · simp only [pyFind, h, if_false]
      by_cases h2 : pyFind pat rest = -1
      · simp [h2]
      · simp only [h2, if_false]
        omega

theorem pyFind_eq_neg_one_iff (pat : List Char) :
    ∀ s, pyFind pat s = -1 ↔ ∀ i, pat.isPrefixOf (s.drop i) = false := by
  intro s
  induction s with
  | nil =>
    cases pat with
    | nil => simp [pyFind]
    | cons a tl => simp [pyFind]
  | cons c rest ih =>
    cases h : pat.isPrefixOf (c :: rest) with
    | true =>
      constructor
      · intro habs
        rw [pyFind, if_pos h] at habs
        exact absurd habs (by omega)
      · intro hall
        have h0 := hall 0
        simp only [List.drop_zero] at h0
        rw [h] at h0
        cases h0
    | false =>
      have hstep : pyFind pat (c :: rest) =
          (if pyFind pat rest = -1 then -1 else pyFind pat rest + 1) := by
        rw [pyFind]
        simp [h]
      rw [hstep]
      by_cases h2 : pyFind pat rest = -1
      · rw [if_pos h2]
        refine ⟨fun _ => ?_, fun _ => rfl⟩
        intro i
        match i with
        | 0 => simpa using h
        | i + 1 =>
          rw [List.drop_succ_cons]
          exact (ih.mp h2) i
      · rw [if_neg h2]
        constructor
        · intro habs
          have := neg_one_le_pyFind pat rest
          omega
        · intro hall
          exfalso
          apply h2
          rw [ih]
          intro i
          have := hall (i + 1)
          rwa [List.drop_succ_cons] at this

theorem zero_lt_pyFind_iff (pat : List Char) :
    ∀ s, 0 < pyFind pat s ↔
      pat.isPrefixOf s = false ∧ ∃ i, pat.isPrefixOf (s.drop i) = true := by
  intro s
  induction s with
  | nil =>
    cases pat with
    | nil => simp [pyFind]
    | cons a tl => simp [pyFind]
  | cons c rest ih =>
    cases h : pat.isPrefixOf (c :: rest) with
    | true => simp [pyFind, h]
    | false =>
      have hstep : pyFind pat (c :: rest) =
          (if pyFind pat rest = -1 then -1 else pyFind pat rest + 1) := by
        rw [pyFind]
        simp [h]
      rw [hstep]
      by_cases h2 : pyFind pat rest = -1
      · rw [if_pos h2]
        constructor
        · intro habs
          exact absurd habs (by omega)
        · rintro ⟨-, i, hi⟩
          exfalso
          match i with
          | 0 =>
            simp only [List.drop_zero] at hi
            rw [h] at hi
            cases hi
          | i + 1 =>
            rw [List.drop_succ_cons] at hi
            have := ((pyFind_eq_neg_one_iff pat rest).mp h2) i
            rw [hi] at this
            cases this
      · rw [if_neg h2]
        have hge := neg_one_le_pyFind pat rest
        have hlt : 0 < pyFind pat rest + 1 := by omega
        have hocc : ∃ i, pat.isPrefixOf (rest.drop i) = true := by
          by_contra hnone
          push_neg at hnone
          apply h2
          rw [pyFind_eq_neg_one_iff]
          intro i
          have := hnone i
          cases hcase : pat.isPrefixOf (rest.drop i) with
          | true => exact absurd hcase this
          | false => rfl
        obtain ⟨i, hi⟩ := hocc
        exact ⟨fun _ => ⟨rfl, i + 1, by rwa [List.drop_succ_cons]⟩, fun _ => hlt⟩

/-- C4 counterexample: with exit code 2 and a stderr consisting of exactly the
allow-list message itself, every stderr line matches the allow-list message
(the line literally is the message, so the message occurs in it — here as a
prefix of it), yet `restore_ddl` raises instead of downgrading to a warning,
because the code requires `message.find(MSG) > 0`, a strictly positive
offset, and `find` returns `0` on that line. -/
theorem restore_ddl_exec_counterexample :
    restoreDdlExec 2 [msgChars] = .fatal
      ∧ msgChars.isPrefixOf msgChars = true := by
  refine ⟨?_, isPrefixOf_self msgChars⟩
  have h0 : pyFind msgChars msgChars = 0 := pyFind_self msgChars
  simp [restoreDdlExec, h0]

/-- C4 amended: in request/response mode, exit code 0 succeeds; exit code 2
is downgraded to a warning and execution continues if and only if every
captured stderr line contains the fixed allow-list message at a strictly
positive character offset (Python `find(MSG) > 0`): a line in which the
message does not occur, or in which its first occurrence starts at offset 0
(a line equal to the message or starting with it), is fatal; every other
non-zero exit code is fatal. -/
theorem restore_ddl_exec_tolerates_iff (code : Int) (errLines : List (List Char)) :
    restoreDdlExec code errLines ≠ .fatal ↔
      (code = 0 ∨ (code = 2 ∧ ∀ l ∈ errLines,
        msgChars.isPrefixOf l = false ∧ ∃ i, msgChars.isPrefixOf (l.drop i) = true)) := by
  have hchar : ∀ l, (decide ((0 : Int) < pyFind msgChars l) = true) ↔
      (msgChars.isPrefixOf l = false ∧ ∃ i, msgChars.isPrefixOf (l.drop i) = true) := by
    intro l
    rw [decide_eq_true_eq]
    exact zero_lt_pyFind_iff msgChars l
  by_cases h0 : code = 0
  · simp [restoreDdlExec, h0]
  · by_cases h2 : code = 2
    · subst h2
      cases hall : errLines.all (fun l => decide ((0 : Int) < pyFind msgChars l)) with
      | true =>
        have hres : restoreDdlExec 2 errLines = .warned errLines.length := by
          simp [restoreDdlExec, hall]
        rw [hres]
        constructor
        · intro _
          exact Or.inr ⟨rfl, fun l hl => (hchar l).mp (List.all_eq_true.mp hall l hl)⟩
        · intro _
          simp
      | false =>
        have hres : restoreDdlExec 2 errLines = .fatal := by
          simp [restoreDdlExec, hall]
        rw [hres]
        constructor
        · intro habs
          exact absurd rfl habs
        · rintro (hbad | ⟨-, hforall⟩)
          · exact absurd hbad h0
          · exfalso
            have hx : errLines.all (fun l => decide ((0 : Int) < pyFind msgChars l)) = true :=
              List.all_eq_true.mpr fun l hl => (hchar l).mpr (hforall l hl)
            rw [hall] at hx
            cases hx
    · have hres : restoreDdlExec code errLines = .fatal := by
        simp [restoreDdlExec, h0, h2]
      rw [hres]
      constructor
      · intro habs
        exact absurd rfl habs
      · rintro (hbad | ⟨hbad, -⟩)
        · exact absurd hbad h0
        · exact absurd hbad h2

/-- Witness for `restore_ddl_exec_tolerates_iff`: exit code 2 with empty
stderr is downgraded (the allow-list condition holds vacuously). -/
theorem restore_ddl_exec_tolerates_iff_witness :
    restoreDdlExec 2 [] ≠ DdlExecOutcome.fatal :=
  (restore_ddl_exec_tolerates_iff 2 []).mpr (Or.inr ⟨rfl, by simp⟩)

/-- C2 counterexample: the spec's example claims a table reporting 100 rows
with a stream of 100 lines including the banner (99 data lines) succeeds; on
the code, `count - 1 = 99 ≠ 100 = total`, so `backup_table` raises the
`RuntimeError("Wrong count of rows : expected 100, got 100")`. -/
theorem backup_table_spec_example_fails :
    backupTable 100 (List.replicate 100 "row,data\n") = .wrongCount 100 100 := by
  simp [backupTable]

/-- C2 amended: `backup_table` succeeds, writing the streamed lines minus the
banner line, if and only if the number of streamed output lines minus one
equals the independently pre-fetched `SELECT count(*)` value; on any mismatch
it raises the wrong-count `RuntimeError` carrying both numbers and is not
retried.  A table reporting 100 rows succeeds with a stream of 101 lines
including the banner (100 data lines); a stream of 100 lines including the
banner (99 data lines) is fatal. -/
theorem backup_table_count_check (total : Int) (streamed : List String) :
    ((streamed.length : Int) - 1 = total →
        backupTable total streamed = .ok (streamed.drop 1))
      ∧ ((streamed.length : Int) - 1 ≠ total →
        backupTable total streamed = .wrongCount total streamed.length) := by
  constructor <;> intro h <;> simp [backupTable, h]

/-- Witness for `backup_table_count_check`: 100 reported rows, 101 streamed
lines including the banner — success. -/
theorem backup_table_count_check_witness :
    backupTable 100 (List.replicate 101 "row,data\n")
      = .ok ((List.replicate 101 "row,data\n").drop 1) :=
  (backup_table_count_check 100 (List.replicate 101 "row,data\n")).1 (by simp)

/-- C7: the schema verification of `restore_ddl` succeeds exactly when every
paragraph of the banner-stripped fresh dump occurs among the blank-line
paragraphs of the source file, and on failure the raised error enumerates
exactly the dump paragraphs absent from the source file. -/
theorem restore_ddl_schema_check_spec (dump source : List Char) :
    (restoreDdlSchemaCheck dump source = .ok () ↔
        ∀ par ∈ splitParagraphs (dropThroughNewline dump), par ∈ splitParagraphs source)
      ∧ ∀ d, restoreDdlSchemaCheck dump source = .error d →
          ∀ par, (par ∈ d ↔
            par ∈ splitParagraphs (dropThroughNewline dump)
              ∧ par ∉ splitParagraphs source) := by
  constructor
  · unfold restoreDdlSchemaCheck
    split
    · rename_i hpos
      unfold ddlDiff at hpos
      constructor
      · intro habs
        cases habs
      · intro hall
        exfalso
        rw [Nat.pos_iff_ne_zero, Ne, List.length_eq_zero, List.filter_eq_nil_iff] at hpos
        apply hpos
        intro par hpar
        simp [hall par hpar]
    · rename_i hneg
      unfold ddlDiff at hneg
      rw [Nat.not_lt, Nat.le_zero, List.length_eq_zero, List.filter_eq_nil_iff] at hneg
      constructor
      · intro _ par hpar
        have := hneg par hpar
        simpa using this
      · intro _
        rfl
  · intro d hd par
    unfold restoreDdlSchemaCheck at hd
    split at hd
    · cases hd
      simp [ddlDiff, List.mem_filter]
    · cases hd

/-- Witness for `restore_ddl_schema_check_spec`: a dump whose paragraphs all
occur in the source file passes the verification. -/
theorem restore_ddl_schema_check_spec_witness :
    restoreDdlSchemaCheck "BANNER\nA\n\nB".data "A\n\nB\n\nC".data = .ok () :=
  (restore_ddl_schema_check_spec "BANNER\nA\n\nB".data "A\n\nB\n\nC".data).1.mpr
    (by decide)

/-! ### McCommands (services/mc_commands.py)

`_du_bucket` readings are modelled as the (object-count, total-bytes) pairs
the `du --versions` invocations would report; `_mirror_buckets` is embedded as
the verification logic applied to the source reading taken before the mirror
command and to the one or two target readings taken after it. -/

/-- Result of `McCommands._mirror_buckets` after the mirror command
completed: `ok duTargetReads sleptSeconds` records how many times the target
bucket was measured and how long the retry wait was; `failed msg` carries the
`RuntimeError` message. -/
inductive MirrorResult where
  | ok (duTargetReads : Nat) (sleptSeconds : Nat)
  | failed (msg : String)
deriving DecidableEq

/-- The `"{objects} / {size}"` fragment used in the failure message. -/
def pairText (objects size : Nat) : String :=
  toString objects ++ " / " ++ toString size

/-- The f-string of the fatal branch of `_mirror_buckets`. -/
def mirrorFailureMessage (source target : String) (srcObjects srcSize tgtObjects tgtSize : Nat) :
    String :=
  "Mirror " ++ source ++ " to " ++ target ++ " failed:"
    ++ " expected " ++ pairText srcObjects srcSize
    ++ " actual " ++ pairText tgtObjects tgtSize

/-- The verification tail of `McCommands._mirror_buckets`: compare the target
disk usage against the source disk usage captured before mirroring; on
mismatch sleep 5 seconds and re-measure exactly once; on a second mismatch
raise with both pairs in the message.  `tgtRead1`/`tgtRead2` are the values
the first and (when taken) second `_du_bucket(target)` calls report. -/
def mirrorBucketsVerify (source target : String) (src tgtRead1 tgtRead2 : Nat × Nat) :
    MirrorResult :=
  if src.1 ≠ tgtRead1.1 ∨ src.2 ≠ tgtRead1.2 then
    if src.1 ≠ tgtRead2.1 ∨ src.2 ≠ tgtRead2.2 then
      .failed (mirrorFailureMessage source target src.1 src.2 tgtRead2.1 tgtRead2.2)
    else .ok 2 5
  else .ok 1 0

/-- C3: after the mirror command, equality of the target pair with the
pre-captured source pair succeeds without any retry; inequality triggers
exactly one re-read after a 5-second wait, succeeding when the second read
matches; a second mismatch is fatal with a message that contains both the
source pair and the (second) target pair; the target is never measured more
than twice. -/
theorem mirror_buckets_verify_spec (source target : String) (src t1 t2 : Nat × Nat) :
    (t1 = src → mirrorBucketsVerify source target src t1 t2 = .ok 1 0)
      ∧ (t1 ≠ src → t2 = src → mirrorBucketsVerify source target src t1 t2 = .ok 2 5)
      ∧ (t1 ≠ src → t2 ≠ src →
          mirrorBucketsVerify source target src t1 t2
            = .failed (mirrorFailureMessage source target src.1 src.2 t2.1 t2.2))
      ∧ (∀ r s, mirrorBucketsVerify source target src t1 t2 = .ok r s → r ≤ 2 ∧ s ≤ 5)
      ∧ (pairText src.1 src.2).data
          <:+: (mirrorFailureMessage source target src.1 src.2 t2.1 t2.2).data
      ∧ (pairText t2.1 t2.2).data
          <:+: (mirrorFailureMessage source target src.1 src.2 t2.1 t2.2).data := by
  have hpair : ∀ a b : Nat × Nat, (a.1 ≠ b.1 ∨ a.2 ≠ b.2) ↔ a ≠ b := by
    rintro ⟨a1, a2⟩ ⟨b1, b2⟩
    constructor
    · rintro (h | h) heq <;> cases heq <;> exact h rfl
    · intro hne
      by_cases h1 : a1 = b1
      · subst h1
        refine Or.inr fun h2 => ?_
        subst h2
        exact hne rfl
      · exact Or.inl h1
  refine ⟨?_, ?_, ?_, ?_, ?_, ?_⟩
  · intro h
    subst h
    simp [mirrorBucketsVerify]
  · intro h1 h2
    have hcond1 : src.1 ≠ t1.1 ∨ src.2 ≠ t1.2 := (hpair src t1).mpr (Ne.symm h1)
    have hcond2 : ¬ (src.1 ≠ t2.1 ∨ src.2 ≠ t2.2) := by
      rw [hpair src t2]
      intro hne
      exact hne (by rw [h2])
    simp [mirrorBucketsVerify, hcond1, hcond2]
  · intro h1 h2
    have hcond1 : src.1 ≠ t1.1 ∨ src.2 ≠ t1.2 := (hpair src t1).mpr (Ne.symm h1)
    have hcond2 : src.1 ≠ t2.1 ∨ src.2 ≠ t2.2 := (hpair src t2).mpr (Ne.symm h2)
    simp [mirrorBucketsVerify, hcond1, hcond2]
  · intro r s hr
    unfold mirrorBucketsVerify at hr
    split at hr
    · split at hr
      · cases hr
      · cases hr
        exact ⟨by omega, by omega⟩
    · cases hr
      exact ⟨by omega, by omega⟩
  · refine ⟨("Mirror " ++ source ++ " to " ++ target ++ " failed:" ++ " expected ").data,
      (" actual " ++ pairText t2.1 t2.2).data, ?_⟩
    simp [mirrorFailureMessage]
  · refine ⟨("Mirror " ++ source ++ " to " ++ target ++ " failed:" ++ " expected "
      ++ pairText src.1 src.2 ++ " actual ").data, [], ?_⟩
    simp [mirrorFailureMessage]

/-- Witness for `mirror_buckets_verify_spec`: source (10, 500), first target
read (9, 500), second target read (10, 500) — one retry, then success. -/
theorem mirror_buckets_verify_spec_witness :
    mirrorBucketsVerify "local/bucket" "cluster/bucket" (10, 500) (9, 500) (10, 500)
      = .ok 2 5 :=
  (mirror_buckets_verify_spec "local/bucket" "cluster/bucket" (10, 500) (9, 500)
    (10, 500)).2.1 (by decide) rfl

/-! ### Archiver (services/archiver.py)

The tarfile interactions are modelled by the member lists they produce and
consume: `archive.add(path, arcname=item)` on a directory produces a
directory member named `item` followed by one file member
`item ++ "/" ++ relative_path` per file of the subtree, and
`ArchiveExtractor.extract_dir_item` filters the member list by the
`"<item>/"` name-prefix test the Python code performs.  The metadata side
file is written with `json.dump(self._metadata)`; the `json` library
round-trip is modelled as the identity on the metadata mapping, so the
metadata member carries the mapping itself.  Member and item names are
character lists so that the prefix test is the literal list-prefix test. -/

/-- Payload of one tar member: a directory marker, a file with its bytes, or
the serialized metadata mapping (values of type `μ`). -/
inductive TarPayload (μ : Type) where
  | dirEntry : TarPayload μ
  | fileEntry (content : String) : TarPayload μ
  | metaEntry (metadata : List (String × μ)) : TarPayload μ
deriving DecidableEq

/-- One member of the tar archive. -/
structure TarMember (μ : Type) where
  name : List Char
  payload : TarPayload μ
deriving DecidableEq

/-- A filesystem node referenced by an accumulated item path: a plain file,
or a directory given by its files (relative path, content); nested
directories are represented by their flattened relative file paths. -/
inductive FsNode where
  | file (content : String)
  | dir (files : List (List Char × String))
deriving DecidableEq

/-- The file member produced for one file of a directory item. -/
def itemFileMember {μ : Type} (arcname : List Char) (rc : List Char × String) : TarMember μ :=
  ⟨arcname ++ '/' :: rc.1, .fileEntry rc.2⟩

/-- `archive.add(path, arcname=arcname)`. -/
def tarAdd {μ : Type} (arcname : List Char) : FsNode → List (TarMember μ)
  | .file c => [⟨arcname, .fileEntry c⟩]
  | .dir files => ⟨arcname, .dirEntry⟩ :: files.map (itemFileMember arcname)

/-- `ArchiveItem.METADATA.value`. -/
def metadataItemName : List Char := "metadata.json".data

/-- `ArchiveCreator.finalize`: add every accumulated item under its
archive-item name, in dictionary order, then the metadata file under
`ArchiveItem.METADATA.value`.  `fs` maps a source path to the filesystem node
found there at finalize time. -/
def finalizeArchive {μ : Type} (fs : String → FsNode) (items : List (List Char × String))
    (metadata : List (String × μ)) : List (TarMember μ) :=
  (items.flatMap fun item => tarAdd item.1 (fs item.2))
    ++ [⟨metadataItemName, .metaEntry metadata⟩]

/-- `ArchiveExtractor.extract_dir_item`: keep exactly the members whose path
starts with `archive_item ++ "/"`. -/
def extractDirItem {μ : Type} (archive_item : List Char) (members : List (TarMember μ)) :
    List (TarMember μ) :=
  members.filter fun m => (archive_item ++ ['/']).isPrefixOf m.name

/-- The metadata mappings stored in an archive. -/
def metaEntries {μ : Type} (members : List (TarMember μ)) : List (List (String × μ)) :=
  members.filterMap fun m =>
    match m.payload with
    | .metaEntry metadata => some metadata
    | _ => none

/-- `ArchiveCreator._add_item` / Python dict assignment `d[k] = v`: replace
the value in place when the key is present, append otherwise. -/
def dictInsert {α β : Type} [DecidableEq α] (d : List (α × β)) (key : α) (value : β) :
    List (α × β) :=
  match d with
  | [] => [(key, value)]
  | (k, v) :: rest =>
    if k = key then (key, value) :: rest else (k, v) :: dictInsert rest key value

/-- The `_items` dict after a sequence of `add_file_item`/`add_dir_item`
calls, each recorded as (archive-item name, source path). -/
def itemsAfterAdds {α β : Type} [DecidableEq α] (adds : List (α × β)) : List (α × β) :=
  adds.foldl (fun d kv => dictInsert d kv.1 kv.2) []

/-- Python dict lookup on the association-list model. -/
def lookupItem {α β : Type} [DecidableEq α] : List (α × β) → α → Option β
  | [], _ => none
  | (k, v) :: rest, key => if k = key then some v else lookupItem rest key

theorem lookupItem_dictInsert {α β : Type} [DecidableEq α]
    (d : List (α × β)) (k : α) (v : β) (key : α) :
    lookupItem (dictInsert d k v) key = if k = key then some v else lookupItem d key := by
  induction d with
  | nil => simp [dictInsert, lookupItem]
  | cons kv rest ih =>
    obtain ⟨k2, v2⟩ := kv
    by_cases h : k2 = k
    · subst h
      by_cases hk : k2 = key
      · subst hk
        simp [dictInsert, lookupItem]
      · simp [dictInsert, lookupItem, hk]
    · by_cases hk : k = key
      · subst hk
        have hk2 : ¬ k2 = k := h
        simp [dictInsert, lookupItem, h, hk2, ih]
      · by_cases hk2 : k2 = key
        · subst hk2
          simp [dictInsert, lookupItem, h, hk, ih]
        · simp [dictInsert, lookupItem, h, hk, hk2, ih]

theorem keys_dictInsert {α β : Type} [DecidableEq α] (d : List (α × β)) (k : α) (v : β) :
    (dictInsert d k v).map Prod.fst =
      if k ∈ d.map Prod.fst then d.map Prod.fst else d.map Prod.fst ++ [k] := by
  induction d with
  | nil => simp [dictInsert]
  | cons kv rest ih =>
    obtain ⟨k2, v2⟩ := kv
    by_cases h : k2 = k
    · subst h
      simp [dictInsert]
    · have hne : ¬ k = k2 := fun heq => h heq.symm
      by_cases hmem : k ∈ rest.map Prod.fst
      · simp [dictInsert, h, ih, hmem, hne]
      · simp [dictInsert, h, ih, hmem, hne]

theorem nodup_keys_itemsAfterAdds {α β : Type} [DecidableEq α] (adds : List (α × β)) :
    ((itemsAfterAdds adds).map Prod.fst).Nodup := by
  induction adds using List.reverseRecOn with
  | nil => simp [itemsAfterAdds]
  | append_singleton as a ih =>
    have hstep : itemsAfterAdds (as ++ [a]) = dictInsert (itemsAfterAdds as) a.1 a.2 := by
      simp [itemsAfterAdds]
    rw [hstep, keys_dictInsert]
    by_cases hmem : a.1 ∈ (itemsAfterAdds as).map Prod.fst
    · simpa [hmem] using ih
    · rw [if_neg hmem, List.nodup_append]
      refine ⟨ih, List.nodup_singleton a.1, ?_⟩
      intro x hx hx2
      rw [List.mem_singleton] at hx2
      subst hx2
      exact hmem hx

theorem mem_keys_itemsAfterAdds {α β : Type} [DecidableEq α] (adds : List (α × β)) (key : α) :
    key ∈ (itemsAfterAdds adds).map Prod.fst ↔ key ∈ adds.map Prod.fst := by
  induction adds using List.reverseRecOn generalizing key with
  | nil => simp [itemsAfterAdds]
  | append_singleton as a ih =>
    have hstep : itemsAfterAdds (as ++ [a]) = dictInsert (itemsAfterAdds as) a.1 a.2 := by
      simp [itemsAfterAdds]
    rw [hstep, keys_dictInsert]
    by_cases hmem : a.1 ∈ (itemsAfterAdds as).map Prod.fst
    · have ha : a.1 ∈ as.map Prod.fst := (ih a.1).mp hmem
      rw [if_pos hmem]
      rw [ih key]
      simp only [List.map_append, List.mem_append, List.map_cons, List.map_nil,
        List.mem_singleton]
      constructor
      · intro hk
        exact Or.inl hk
      · rintro (hk | hk)
        · exact hk
        · rw [hk]
          exact ha
    · rw [if_neg hmem]
      simp only [List.mem_append, List.mem_singleton, List.map_append,
        List.map_cons, List.map_nil, ih key]

theorem lookupItem_itemsAfterAdds {α β : Type} [DecidableEq α]
    (adds : List (α × β)) (key : α) :
    lookupItem (itemsAfterAdds adds) key
      = ((adds.filter fun kv => decide (kv.1 = key)).map Prod.snd).getLast? := by
  induction adds using List.reverseRecOn with
  | nil => simp [itemsAfterAdds, lookupItem]
  | append_singleton as a ih =>
    have hstep : itemsAfterAdds (as ++ [a]) = dictInsert (itemsAfterAdds as) a.1 a.2 := by
      simp [itemsAfterAdds]
    rw [hstep, lookupItem_dictInsert]
    by_cases hk : a.1 = key
    · rw [if_pos hk, List.filter_append, List.map_append]
      have hfa : (([a] : List (α × β)).filter fun kv => decide (kv.1 = key)) = [a] := by
        simp [hk]
      rw [hfa]
      simp
    · rw [if_neg hk, List.filter_append, List.map_append]
      have hfa : (([a] : List (α × β)).filter fun kv => decide (kv.1 = key)) = [] := by
        simp [hk]
      rw [hfa]
      simp [ih]

/-- C10: item accumulation is last-write-wins per archive-item name: after
any sequence of `_add_item` calls the `_items` dict has pairwise distinct
keys (so `finalize` emits exactly one top-level entry per distinct name), its
keys are exactly the names that were added, and each name maps to the last
source path added under it. -/
theorem archive_items_last_write_wins {α β : Type} [DecidableEq α] (adds : List (α × β)) :
    ((itemsAfterAdds adds).map Prod.fst).Nodup
      ∧ (∀ key, key ∈ (itemsAfterAdds adds).map Prod.fst ↔ key ∈ adds.map Prod.fst)
      ∧ (∀ key, lookupItem (itemsAfterAdds adds) key
          = ((adds.filter fun kv => decide (kv.1 = key)).map Prod.snd).getLast?) :=
  ⟨nodup_keys_itemsAfterAdds adds, fun key => mem_keys_itemsAfterAdds adds key,
    fun key => lookupItem_itemsAfterAdds adds key⟩

/-- Witness for `archive_items_last_write_wins`: adding `minio` twice keeps
one entry for it, sourced from the last added path. -/
theorem archive_items_last_write_wins_witness :
    lookupItem (itemsAfterAdds [("minio", "/a"), ("cql", "/b"), ("minio", "/c")]) "minio"
      = some "/c" := by
  have h := (archive_items_last_write_wins
    [("minio", "/a"), ("cql", "/b"), ("minio", "/c")]).2.2 "minio"
  rw [h]
  decide

theorem not_prefixSlash_of_slashFree (n m : List Char) (hm : ('/' : Char) ∉ m) :
    (n ++ ['/']).isPrefixOf m = false := by
  cases hp : (n ++ ['/']).isPrefixOf m with
  | false => rfl
  | true =>
    exfalso
    rw [List.isPrefixOf_iff_prefix] at hp
    exact hm (hp.subset (by simp))

theorem not_selfSlash (n : List Char) : (n ++ ['/']).isPrefixOf n = false := by
  cases hp : (n ++ ['/']).isPrefixOf n with
  | false => rfl
  | true =>
    exfalso
    rw [List.isPrefixOf_iff_prefix] at hp
    have := hp.length_le
    simp at this

theorem prefixSlash_join (n rel : List Char) :
    (n ++ ['/']).isPrefixOf (n ++ '/' :: rel) = true := by
  rw [List.isPrefixOf_iff_prefix]
  refine ⟨rel, ?_⟩
  simp

theorem slashPrefix_names_eq :
    ∀ (n n2 rel : List Char), ('/' : Char) ∉ n → ('/' : Char) ∉ n2 →
      (n ++ ['/']) <+: (n2 ++ '/' :: rel) → n = n2 := by
  intro n
  induction n with
  | nil =>
    intro n2 rel _ hn2 hp
    cases n2 with
    | nil => rfl
    | cons b tl =>
      exfalso
      simp only [List.nil_append, List.cons_append] at hp
      rw [show ((['/']) : List Char) = '/' :: [] from rfl, List.cons_prefix_cons] at hp
      exact hn2 (by rw [← hp.1]; exact List.mem_cons_self _ _)
  | cons a n1 ih =>
    intro n2 rel hn hn2 hp
    cases n2 with
    | nil =>
      exfalso
      simp only [List.nil_append, List.cons_append] at hp
      rw [List.cons_prefix_cons] at hp
      exact hn (by rw [hp.1]; exact List.mem_cons_self _ _)
    | cons b tl =>
      simp only [List.cons_append] at hp
      rw [List.cons_prefix_cons] at hp
      obtain ⟨hab, hp2⟩ := hp
      have htail : n1 = tl :=
        ih tl rel (fun hmem => hn (List.mem_cons_of_mem a hmem))
          (fun hmem => hn2 (List.mem_cons_of_mem b hmem)) hp2
      rw [hab, htail]

theorem extractDirItem_append {μ : Type} (n : List Char) (a b : List (TarMember μ)) :
    extractDirItem n (a ++ b) = extractDirItem n a ++ extractDirItem n b := by
  simp [extractDirItem]

theorem extract_tarAdd_self {μ : Type} (n : List Char) (files : List (List Char × String)) :
    extractDirItem n (tarAdd n (FsNode.dir files) : List (TarMember μ))
      = files.map (itemFileMember n) := by
  unfold extractDirItem tarAdd
  rw [List.filter_cons_of_neg (by simp [not_selfSlash n])]
  rw [List.filter_map]
  rw [List.filter_eq_self.mpr]
  intro a _
  simp [itemFileMember, prefixSlash_join]

theorem extract_tarAdd_other {μ : Type} (n n2 : List Char) (node : FsNode)
    (hn : ('/' : Char) ∉ n) (hn2 : ('/' : Char) ∉ n2) (hne : n ≠ n2) :
    extractDirItem n (tarAdd n2 node : List (TarMember μ)) = [] := by
  cases node with
  | file c =>
    unfold extractDirItem tarAdd
    rw [List.filter_cons_of_neg (by simp [not_prefixSlash_of_slashFree n n2 hn2])]
    rfl
  | dir files =>
    unfold extractDirItem tarAdd
    rw [List.filter_eq_nil_iff]
    intro m hm
    rcases List.mem_cons.mp hm with heq | hmem
    · subst heq
      simp [not_prefixSlash_of_slashFree n n2 hn2]
    · obtain ⟨rc, _, hrc⟩ := List.mem_map.mp hmem
      subst hrc
      intro habs
      simp only [itemFileMember] at habs
      rw [List.isPrefixOf_iff_prefix] at habs
      exact hne (slashPrefix_names_eq n n2 rc.1 hn hn2 habs)

theorem extract_flatMap_nil {μ : Type} (fs : String → FsNode) (n : List Char)
    (hn : ('/' : Char) ∉ n) :
    ∀ items : List (List Char × String),
      (∀ item ∈ items, item.1 ≠ n ∧ ('/' : Char) ∉ item.1) →
      extractDirItem n (items.flatMap fun item => tarAdd item.1 (fs item.2))
        = ([] : List (TarMember μ)) := by
  intro items
  induction items with
  | nil =>
    intro _
    simp [extractDirItem]
  | cons it rest ih =>
    intro hall
    rw [List.flatMap_cons, extractDirItem_append]
    have hhead := hall it (List.mem_cons_self it rest)
    rw [extract_tarAdd_other n it.1 (fs it.2) hn hhead.2 (fun heq => hhead.1 heq.symm)]
    rw [List.nil_append]
    exact ih fun x hx => hall x (List.mem_cons_of_mem it hx)

theorem extract_flatMap_item {μ : Type} (fs : String → FsNode) (n : List Char) :
    ∀ items : List (List Char × String),
      (∀ m ∈ items.map Prod.fst, ('/' : Char) ∉ m) →
      (items.map Prod.fst).Nodup →
      ∀ p : String, (n, p) ∈ items →
      ∀ files, fs p = FsNode.dir files →
      extractDirItem n (items.flatMap fun item => tarAdd item.1 (fs item.2))
        = (files.map (itemFileMember n) : List (TarMember μ)) := by
  intro items
  induction items with
  | nil =>
    intro _ _ p hmem
    cases hmem
  | cons it rest ih =>
    intro hslash hnodup p hmem files hdir
    have hn : ('/' : Char) ∉ n := by
      apply hslash
      rcases List.mem_cons.mp hmem with heq | hrest
      · rw [← heq]
        exact List.mem_cons_self _ _
      · exact List.mem_cons_of_mem _ (List.mem_map_of_mem Prod.fst hrest)
    have hnodup2 : it.1 ∉ rest.map Prod.fst ∧ (rest.map Prod.fst).Nodup := by
      rw [List.map_cons, List.nodup_cons] at hnodup
      exact hnodup
    obtain ⟨hhead_notin, htail_nodup⟩ := hnodup2
    rw [List.flatMap_cons, extractDirItem_append]
    rcases List.mem_cons.mp hmem with heq | hrest
    · obtain ⟨itn, itp⟩ := it
      have hn1 : n = itn := congrArg Prod.fst heq
      have hp1 : p = itp := congrArg Prod.snd heq
      subst hn1
      subst hp1
      rw [hdir, extract_tarAdd_self]
      rw [extract_flatMap_nil fs n hn rest ?_, List.append_nil]
      intro x hx
      constructor
      · intro heq2
        apply hhead_notin
        show n ∈ rest.map Prod.fst
        rw [← heq2]
        exact List.mem_map_of_mem Prod.fst hx
      · exact hslash x.1 (List.mem_cons_of_mem _ (List.mem_map_of_mem Prod.fst hx))
    · have hne : it.1 ≠ n := by
        intro heq2
        apply hhead_notin
        rw [heq2]
        exact List.mem_map_of_mem Prod.fst hrest
      rw [extract_tarAdd_other n it.1 (fs it.2) hn
        (hslash it.1 (List.mem_cons_self _ _)) (fun heq2 => hne heq2.symm)]
      rw [List.nil_append]
      exact ih (fun m hm => hslash m (List.mem_cons_of_mem _ hm)) htail_nodup p hrest
        files hdir

theorem metaEntries_append {μ : Type} (a b : List (TarMember μ)) :
    metaEntries (a ++ b) = metaEntries a ++ metaEntries b := by
  simp [metaEntries]

theorem metaEntries_tarAdd {μ : Type} (n2 : List Char) (node : FsNode) :
    metaEntries (tarAdd n2 node : List (TarMember μ)) = [] := by
  cases node with
  | file c => simp [metaEntries, tarAdd]
  | dir files =>
    unfold metaEntries tarAdd
    rw [List.filterMap_eq_nil_iff]
    intro m hm
    rcases List.mem_cons.mp hm with heq | hmem
    · subst heq
      rfl
    · obtain ⟨rc, _, hrc⟩ := List.mem_map.mp hmem
      subst hrc
      rfl

theorem metaEntries_flatMap_nil {μ : Type} (fs : String → FsNode) :
    ∀ items : List (List Char × String),
      metaEntries ((items.flatMap fun item => tarAdd item.1 (fs item.2)) : List (TarMember μ))
        = [] := by
  intro items
  induction items with
  | nil => simp [metaEntries]
  | cons it rest ih =>
    rw [List.flatMap_cons, metaEntries_append, metaEntries_tarAdd, List.nil_append]
    exact ih

/-- C5: archive round-trip.  For any accumulated directory items with
pairwise-distinct, slash-free archive-item names (the names the program uses
are the `ArchiveItem` enumeration values) and any metadata mapping,
finalizing and then extracting an item name keeps exactly the members whose
path is prefixed by `"<name>/"`, and those are precisely the item's files
under that name prefix — the subtree is reproduced byte-identically with its
relative structure preserved — and the metadata entry stored in the archive
is exactly the accumulated metadata mapping. -/
theorem archive_roundtrip {μ : Type} (fs : String → FsNode)
    (items : List (List Char × String)) (metadata : List (String × μ))
    (hslash : ∀ m ∈ items.map Prod.fst, ('/' : Char) ∉ m)
    (hnodup : (items.map Prod.fst).Nodup)
    (n : List Char) (p : String) (hmem : (n, p) ∈ items)
    (files : List (List Char × String)) (hdir : fs p = FsNode.dir files) :
    extractDirItem n (finalizeArchive fs items metadata) = files.map (itemFileMember n)
      ∧ metaEntries (finalizeArchive fs items metadata) = [metadata] := by
  have hn : ('/' : Char) ∉ n := hslash n (List.mem_map_of_mem Prod.fst hmem)
  constructor
  · unfold finalizeArchive
    rw [extractDirItem_append]
    rw [extract_flatMap_item fs n items hslash hnodup p hmem files hdir]
    have hmeta : extractDirItem n ([⟨metadataItemName, TarPayload.metaEntry metadata⟩]
        : List (TarMember μ)) = [] := by
      unfold extractDirItem
      rw [List.filter_cons_of_neg
        (by simp [not_prefixSlash_of_slashFree n metadataItemName (by decide)])]
      rfl
    rw [hmeta, List.append_nil]
  · unfold finalizeArchive
    rw [metaEntries_append, metaEntries_flatMap_nil, List.nil_append]
    rfl

/-- Witness for `archive_roundtrip`: one directory item named `minio` holding
one file, one metadata entry. -/
theorem archive_roundtrip_witness :
    extractDirItem "minio".data
        (finalizeArchive (fun _ => FsNode.dir [("data.txt".data, "payload")])
          [("minio".data, "/wd/minio")] [("version", "v1")])
      = [(itemFileMember "minio".data ("data.txt".data, "payload") : TarMember String)]
      ∧ metaEntries (finalizeArchive (fun _ => FsNode.dir [("data.txt".data, "payload")])
          [("minio".data, "/wd/minio")] [("version", "v1")])
        = [[("version", "v1")]] :=
  archive_roundtrip (fun _ => FsNode.dir [("data.txt".data, "payload")])
    [("minio".data, "/wd/minio")] [("version", "v1")]
    (by decide) (by decide) "minio".data "/wd/minio" (by decide)
    [("data.txt".data, "payload")] rfl

end DataManager
